import Mathlib

/-!
Verification of the `resilience_h8` repository against its specification.

The repository ships example programs, the version-bump script
`scripts/bump_version.py`, and test scaffolding; the resilience primitives
themselves (circuit breaker, rate limiters, retry engine, bulkhead, timeout
wrapper, task-manager admission queue) live in the `resilience_h8` package
that the examples import.  The version-bump script is embedded directly from
its source; each resilience primitive is modelled from the specification, as
noted on its definitions.
-/

namespace BumpVersion

/-- ASCII whitespace stripped by Python's `int()` (also the regex class `\s`
used later for `update_pyproject`): space, tab, newline, carriage return,
vertical tab, form feed. -/
def isPySpace (c : Char) : Bool :=
  c = ' ' || c = '\t' || c = '\n' || c = '\r' || c = '\x0b' || c = '\x0c'

/-- Continuation of the digit run accepted by Python's `int()`: after a
digit, either the run ends, or an underscore followed by a digit, or another
digit.  A trailing or doubled underscore is rejected. -/
def pyDigitsRest : List Char → Bool
  | [] => true
  | '_' :: rest =>
      match rest with
      | [] => false
      | c :: rest2 => c.isDigit && pyDigitsRest rest2
  | c :: rest => c.isDigit && pyDigitsRest rest

/-- Digit run accepted by Python's `int()` after the optional sign:
nonempty, ASCII digits, single underscores only between digits.  (Python
additionally accepts non-ASCII decimal digits; the embedding, like the
repository's version strings, is ASCII.) -/
def pyDigitsOk : List Char → Bool
  | [] => false
  | c :: rest => c.isDigit && pyDigitsRest rest

/-- Numeric value of a digit run, underscores skipped, base 10. -/
def digitsVal (l : List Char) : Nat :=
  (l.filter (fun c => c ≠ '_')).foldl (fun n c => n * 10 + (c.toNat - '0'.toNat)) 0

/-- Whitespace stripping done by Python's `int()` before parsing. -/
def pyStrip (l : List Char) : List Char :=
  ((l.dropWhile isPySpace).reverse.dropWhile isPySpace).reverse

/-- Python's built-in `int(s)` on a string: strip whitespace, optional sign,
then a digit run; `none` models a raised `ValueError`. -/
def pyIntOfString (s : List Char) : Option Int :=
  match pyStrip s with
  | '-' :: rest => if pyDigitsOk rest then some (-(digitsVal rest : Int)) else none
  | '+' :: rest => if pyDigitsOk rest then some ((digitsVal rest : Int)) else none
  | l => if pyDigitsOk l then some ((digitsVal l : Int)) else none

/-- Python's `s.split(".")`: split on every occurrence of the dot, keeping
empty pieces, so the empty string yields one empty piece. -/
def splitOnDot : List Char → List (List Char)
  | [] => [[]]
  | '.' :: rest => [] :: splitOnDot rest
  | c :: rest =>
      match splitOnDot rest with
      | [] => [[c]]
      | p :: ps => (c :: p) :: ps

/-- Embedding of `bump_version` from `scripts/bump_version.py`.  The source
runs `major, minor, patch = map(int, version.split("."))`, then returns the
formatted bump for a recognised `bump_type` and raises `ValueError`
otherwise; a parse or unpack failure also raises `ValueError`.
`Except.error ()` models a raised `ValueError` (the only exception the
function can raise). -/
def bump_version (version bump_type : String) : Except Unit String :=
  match (splitOnDot version.data).map pyIntOfString with
  | [some major, some minor, some patch] =>
      if bump_type = "major" then .ok (toString (major + 1) ++ ".0.0")
      else if bump_type = "minor" then
        .ok (toString major ++ "." ++ toString (minor + 1) ++ ".0")
      else if bump_type = "patch" then
        .ok (toString major ++ "." ++ toString minor ++ "." ++ toString (patch + 1))
      else .error ()
  | _ => .error ()

end BumpVersion

namespace BumpVersion

/-- C9: for a version whose three dot-separated components parse as decimal
integers `a`, `b`, `c`, bump type `major` yields `(a+1).0.0`, `minor` yields
`a.(b+1).0`, `patch` yields `a.b.(c+1)`; any other bump type, and any
version that does not consist of exactly three dot-separated integers,
raises `ValueError`. -/
theorem C9_bump_version_correct (version bump_type : String) :
    (∀ a b c : Int,
        (splitOnDot version.data).map pyIntOfString = [some a, some b, some c] →
          (bump_type = "major" →
             bump_version version bump_type = .ok (toString (a + 1) ++ ".0.0")) ∧
          (bump_type = "minor" →
             bump_version version bump_type =
               .ok (toString a ++ "." ++ toString (b + 1) ++ ".0")) ∧
          (bump_type = "patch" →
             bump_version version bump_type =
               .ok (toString a ++ "." ++ toString b ++ "." ++ toString (c + 1))) ∧
          (bump_type ≠ "major" → bump_type ≠ "minor" → bump_type ≠ "patch" →
             bump_version version bump_type = .error ())) ∧
    ((∀ a b c : Int,
        (splitOnDot version.data).map pyIntOfString ≠ [some a, some b, some c]) →
      bump_version version bump_type = .error ()) := by
  constructor
  · intro a b c h
    refine ⟨?_, ?_, ?_, ?_⟩
    · intro h1
      subst h1
      simp only [bump_version, h]
      rfl
    · intro h1
      subst h1
      simp only [bump_version, h]
      rfl
    · intro h1
      subst h1
      simp only [bump_version, h]
      rfl
    · intro h1 h2 h3
      simp only [bump_version, h, if_neg h1, if_neg h2, if_neg h3]
  · intro h
    unfold bump_version
    split
    · rename_i a b c heq
      exact absurd heq (h a b c)
    · rfl

/-- Witness for C9 at a concrete input. -/
theorem C9_bump_version_correct_witness :
    bump_version "1.2.3" "minor" =
      .ok (toString (1 : Int) ++ "." ++ toString ((2 : Int) + 1) ++ ".0") :=
  ((C9_bump_version_correct "1.2.3" "minor").1 1 2 3 (by decide)).2.1 rfl

/-- Evaluation check: bumps on a concrete version. -/
example : bump_version "1.2.3" "major" = .ok "2.0.0" := rfl

example : bump_version "1.2.3" "patch" = .ok "1.2.4" := rfl

example : bump_version "1.2" "patch" = .error () := rfl

example : bump_version "1.2.3.4" "patch" = .error () := rfl

example : bump_version "1.2.x" "patch" = .error () := rfl

example : bump_version "1.2.3" "other" = .error () := rfl

end BumpVersion

namespace RateLimiter

/-- Modelled from the spec: token-bucket parameters (spec 4.2), capacity
equals `limit` and refill rate is `limit/period` tokens per second. -/
structure BucketConfig where
  capacity : ℚ
  rate : ℚ
deriving DecidableEq

/-- Modelled from the spec: token-bucket state `{tokens, last_refill}` with
fractional tokens (spec 3, "Rate limiter state"). -/
structure BucketState where
  tokens : ℚ
  lastRefill : ℚ
deriving DecidableEq

/-- Outcome of a `try_acquire`: granted, or denied with a `retry_after`. -/
inductive AcquireResult
  | granted
  | denied (retryAfter : ℚ)
deriving DecidableEq

/-- Bucket configuration from `limit` tokens per `period` seconds. -/
def bucketOf (limit period : ℚ) : BucketConfig :=
  ⟨limit, limit / period⟩

/-- Modelled from the spec: a fresh bucket is full (capacity tokens), so
bursts up to `capacity` are admitted (glossary; scenario S1). -/
def tbInit (cfg : BucketConfig) (t0 : ℚ) : BucketState :=
  ⟨cfg.capacity, t0⟩

/-- Modelled from the spec: `try_acquire(n)` for the token bucket
(spec 4.2 steps 1-3): refill clamped at capacity, deduct on grant, store
the refilled value and compute `retry_after = (n - tokens')/rate` on deny. -/
def tbTryAcquire (cfg : BucketConfig) (st : BucketState) (now n : ℚ) :
    BucketState × AcquireResult :=
  let tokens' := min cfg.capacity (st.tokens + (now - st.lastRefill) * cfg.rate)
  if n ≤ tokens' then (⟨tokens' - n, now⟩, .granted)
  else (⟨tokens', now⟩, .denied ((n - tokens') / cfg.rate))

/-- Run a sequence of single-token `try_acquire` calls at given times. -/
def tbRun (cfg : BucketConfig) (st : BucketState) : List ℚ → BucketState × List AcquireResult
  | [] => (st, [])
  | t :: ts =>
      let p := tbTryAcquire cfg st t 1
      let q := tbRun cfg p.1 ts
      (q.1, p.2 :: q.2)

/-- Number of granted results. -/
def grantsCount (l : List AcquireResult) : Nat :=
  (l.filter (fun r => r = .granted)).length

/-- Number of denied results. -/
def deniedCount (l : List AcquireResult) : Nat :=
  (l.filter (fun r =>
    match r with
    | AcquireResult.granted => false
    | AcquireResult.denied _ => true)).length

end RateLimiter

namespace RateLimiter

/-- C2: every token-bucket `try_acquire(n)` refills to
`tokens' = min(capacity, tokens + (now - last_refill) * rate)`, grants and
deducts when `tokens' >= n`, and otherwise stores the refilled value and
denies with `retry_after = (n - tokens')/rate`; with limit 5 per 10 s,
7 requests at t=0 give 5 grants and 2 denials, and one more at t=10 is
granted. -/
theorem C2_token_bucket_try_acquire (cfg : BucketConfig) (st : BucketState) (now n : ℚ) :
    (n ≤ min cfg.capacity (st.tokens + (now - st.lastRefill) * cfg.rate) →
       tbTryAcquire cfg st now n =
         (⟨min cfg.capacity (st.tokens + (now - st.lastRefill) * cfg.rate) - n, now⟩,
          .granted)) ∧
    (min cfg.capacity (st.tokens + (now - st.lastRefill) * cfg.rate) < n →
       tbTryAcquire cfg st now n =
         (⟨min cfg.capacity (st.tokens + (now - st.lastRefill) * cfg.rate), now⟩,
          .denied ((n - min cfg.capacity (st.tokens + (now - st.lastRefill) * cfg.rate)) /
            cfg.rate))) ∧
    grantsCount (tbRun (bucketOf 5 10) (tbInit (bucketOf 5 10) 0) (List.replicate 7 0)).2 = 5 ∧
    deniedCount (tbRun (bucketOf 5 10) (tbInit (bucketOf 5 10) 0) (List.replicate 7 0)).2 = 2 ∧
    (tbTryAcquire (bucketOf 5 10)
        (tbRun (bucketOf 5 10) (tbInit (bucketOf 5 10) 0) (List.replicate 7 0)).1 10 1).2 =
      .granted := by
  refine ⟨?_, ?_, ?_, ?_, ?_⟩
  · intro h
    simp only [tbTryAcquire]
    rw [if_pos h]
  · intro h
    simp only [tbTryAcquire]
    rw [if_neg (not_le.mpr h)]
  · norm_num [tbRun, tbTryAcquire, bucketOf, tbInit, grantsCount, List.replicate, min_def]
    rfl
  · norm_num [tbRun, tbTryAcquire, bucketOf, tbInit, deniedCount, List.replicate, min_def]
  · norm_num [tbRun, tbTryAcquire, bucketOf, tbInit, min_def]

/-- Witness for C2 at a concrete input. -/
theorem C2_token_bucket_try_acquire_witness :
    tbTryAcquire (bucketOf 5 10) (tbInit (bucketOf 5 10) 0) 0 1 =
      (⟨min (bucketOf 5 10).capacity
          ((tbInit (bucketOf 5 10) 0).tokens +
            ((0 : ℚ) - (tbInit (bucketOf 5 10) 0).lastRefill) * (bucketOf 5 10).rate) - 1, 0⟩,
       .granted) :=
  (C2_token_bucket_try_acquire (bucketOf 5 10) (tbInit (bucketOf 5 10) 0) 0 1).1 (by
    norm_num [bucketOf, tbInit])

end RateLimiter

namespace RateLimiter

/-- Modelled from the spec: fixed-window parameters (spec 4.2). -/
structure WindowConfig where
  limit : Nat
  period : ℚ
deriving DecidableEq

/-- Modelled from the spec: fixed-window state `{window_start, count}`
(spec 3, "Rate limiter state"). -/
structure WindowState where
  windowStart : ℚ
  count : Nat
deriving DecidableEq

/-- Modelled from the spec: fixed-window `try_acquire` (spec 4.2):
atomically obtain `{window_start, count}`; a missing record (first request)
starts a fresh window at `now`, realising the default first-request
alignment; if `now - window_start >= period`, reset to `{now, 0}`; grant
and increment while `count < limit`, else deny with
`retry_after = period - (now - window_start)`. -/
def fwTryAcquire (cfg : WindowConfig) (st0 : Option WindowState) (now : ℚ) :
    WindowState × AcquireResult :=
  let st : WindowState :=
    match st0 with
    | none => ⟨now, 0⟩
    | some st => if cfg.period ≤ now - st.windowStart then ⟨now, 0⟩ else st
  if st.count < cfg.limit then (⟨st.windowStart, st.count + 1⟩, .granted)
  else (st, .denied (cfg.period - (now - st.windowStart)))

end RateLimiter

namespace RateLimiter

/-- C7: each fixed-window `try_acquire` resets the window to `{now, 0}` once
`now - window_start >= period`, then grants and increments while
`count < limit` and otherwise denies with
`retry_after = period - (now - window_start)`; a fresh (first-request)
window starts at `now`, i.e. windows are aligned to the first request, not
the wall clock. -/
theorem C7_fixed_window_try_acquire (cfg : WindowConfig) (ws : ℚ) (cnt : Nat) (now : ℚ) :
    (cfg.period ≤ now - ws →
       fwTryAcquire cfg (some ⟨ws, cnt⟩) now = fwTryAcquire cfg none now) ∧
    (now - ws < cfg.period → cnt < cfg.limit →
       fwTryAcquire cfg (some ⟨ws, cnt⟩) now = (⟨ws, cnt + 1⟩, .granted)) ∧
    (now - ws < cfg.period → cfg.limit ≤ cnt →
       fwTryAcquire cfg (some ⟨ws, cnt⟩) now =
         (⟨ws, cnt⟩, .denied (cfg.period - (now - ws)))) ∧
    (fwTryAcquire cfg none now).1.windowStart = now := by
  refine ⟨?_, ?_, ?_, ?_⟩
  · intro h
    simp only [fwTryAcquire, if_pos h]
  · intro h1 h2
    simp only [fwTryAcquire, if_neg (not_le.mpr h1), if_pos h2]
  · intro h1 h2
    simp only [fwTryAcquire, if_neg (not_le.mpr h1), if_neg (not_lt.mpr h2)]
  · by_cases h : 0 < cfg.limit <;> simp [fwTryAcquire, h]

/-- Witness for C7 at a concrete input. -/
theorem C7_fixed_window_try_acquire_witness :
    fwTryAcquire ⟨5, 10⟩ (some ⟨0, 0⟩) 0 = (⟨0, 1⟩, .granted) :=
  (C7_fixed_window_try_acquire ⟨5, 10⟩ 0 0 0).2.1 (by norm_num) (by norm_num)

end RateLimiter

namespace Circuit

/-- Circuit breaker states (spec 4.3); `opened` is the spec's OPEN. -/
inductive CState
  | closed
  | opened
  | halfOpen
deriving DecidableEq

/-- Modelled from the spec: circuit state record (spec 3, "Circuit state
record"): state, consecutive failure count, `opened_at` stamp. -/
structure CRecord where
  state : CState
  failureCount : Nat
  openedAt : ℚ
deriving DecidableEq

/-- Modelled from the spec: breaker configuration
(`failure_threshold`, `recovery_timeout`). -/
structure CConfig where
  failureThreshold : Nat
  recoveryTimeout : ℚ
deriving DecidableEq

/-- What the underlying operation would do if invoked: succeed, or fail,
the failure classified as tripping or not by the failure predicate
(spec 4.3, "Failure classification"). -/
inductive CallOutcome
  | success
  | failure (tripping : Bool)
deriving DecidableEq

/-- Observable result of one `execute` call. -/
inductive CallResult
  | opSuccess
  | opFailure
  | fallbackResult
  | circuitOpenError
deriving DecidableEq

/-- One call: its (monotonic) time, the operation's behaviour, and whether
a fallback is supplied. -/
structure CallEvent where
  now : ℚ
  outcome : CallOutcome
  hasFallback : Bool

/-- Modelled from the spec: admission step (spec 4.3 OPEN): when
`now - opened_at >= recovery_timeout`, the next admitted call moves the
record to HALF_OPEN (compare-and-set); otherwise no record change. -/
def cbAdmit (cfg : CConfig) (r : CRecord) (now : ℚ) : CRecord :=
  match r.state with
  | CState.opened =>
      if cfg.recoveryTimeout ≤ now - r.openedAt then
        ⟨CState.halfOpen, r.failureCount, r.openedAt⟩
      else r
  | _ => r

/-- Modelled from the spec: resolution of the call after admission
(spec 4.3): CLOSED passes through, counting tripping failures and resetting
on success, opening at the threshold with `opened_at = now`; OPEN (still
inside the recovery window) fails fast with CircuitOpen or returns the
fallback; HALF_OPEN runs the probe, success closing the circuit with
counters zeroed and failure re-opening it with `opened_at` restamped. -/
def cbSettle (cfg : CConfig) (r : CRecord) (e : CallEvent) : CRecord × CallResult :=
  match r.state with
  | CState.closed =>
      match e.outcome with
      | CallOutcome.success => (⟨CState.closed, 0, r.openedAt⟩, CallResult.opSuccess)
      | CallOutcome.failure true =>
          if cfg.failureThreshold ≤ r.failureCount + 1 then
            (⟨CState.opened, r.failureCount + 1, e.now⟩, CallResult.opFailure)
          else (⟨CState.closed, r.failureCount + 1, r.openedAt⟩, CallResult.opFailure)
      | CallOutcome.failure false => (r, CallResult.opFailure)
  | CState.opened =>
      (r, if e.hasFallback then CallResult.fallbackResult else CallResult.circuitOpenError)
  | CState.halfOpen =>
      match e.outcome with
      | CallOutcome.success => (⟨CState.closed, 0, r.openedAt⟩, CallResult.opSuccess)
      | CallOutcome.failure _ => (⟨CState.opened, r.failureCount, e.now⟩, CallResult.opFailure)

/-- One `execute` call: admission (possible OPEN to HALF_OPEN move), then
resolution. -/
def cbExecute (cfg : CConfig) (r : CRecord) (e : CallEvent) : CRecord × CallResult :=
  cbSettle cfg (cbAdmit cfg r e.now) e

/-- Record after a sequence of `execute` calls. -/
def cbRun (cfg : CConfig) (r : CRecord) : List CallEvent → CRecord
  | [] => r
  | e :: es => cbRun cfg (cbExecute cfg r e).1 es

/-- Every record value the storage holds along a sequence of calls: the
initial record, then for each call the record after admission and the
record after resolution. -/
def cbTrace (cfg : CConfig) (r : CRecord) : List CallEvent → List CRecord
  | [] => [r]
  | e :: es =>
      let r1 := cbAdmit cfg r e.now
      r :: r1 :: cbTrace cfg (cbSettle cfg r1 e).1 es

end Circuit

namespace Circuit

/-- C1: the transition behaviour of `execute` (spec 4.3): in CLOSED a
success zeroes the consecutive-failure counter, a tripping failure
increments it, and reaching `failure_threshold` opens the circuit with
`opened_at = now`; in OPEN inside the recovery window every call fails fast
with CircuitOpen (or returns the fallback result when supplied); once
`now - opened_at >= recovery_timeout` the next call is admitted through
HALF_OPEN, a successful probe closing the circuit with counters zeroed and
a failed probe re-opening it with `opened_at` restamped; likewise from
HALF_OPEN. -/
theorem C1_circuit_breaker_transitions (cfg : CConfig) (r : CRecord) (e : CallEvent) :
    (r.state = CState.closed → e.outcome = CallOutcome.success →
       cbExecute cfg r e = (⟨CState.closed, 0, r.openedAt⟩, CallResult.opSuccess)) ∧
    (r.state = CState.closed → e.outcome = CallOutcome.failure true →
       r.failureCount + 1 < cfg.failureThreshold →
       cbExecute cfg r e =
         (⟨CState.closed, r.failureCount + 1, r.openedAt⟩, CallResult.opFailure)) ∧
    (r.state = CState.closed → e.outcome = CallOutcome.failure true →
       cfg.failureThreshold ≤ r.failureCount + 1 →
       cbExecute cfg r e = (⟨CState.opened, r.failureCount + 1, e.now⟩, CallResult.opFailure)) ∧
    (r.state = CState.closed → e.outcome = CallOutcome.failure false →
       cbExecute cfg r e = (r, CallResult.opFailure)) ∧
    (r.state = CState.opened → e.now - r.openedAt < cfg.recoveryTimeout →
       cbExecute cfg r e =
         (r, if e.hasFallback then CallResult.fallbackResult else CallResult.circuitOpenError)) ∧
    (r.state = CState.opened → cfg.recoveryTimeout ≤ e.now - r.openedAt →
       (cbAdmit cfg r e.now).state = CState.halfOpen ∧
       (e.outcome = CallOutcome.success →
          cbExecute cfg r e = (⟨CState.closed, 0, r.openedAt⟩, CallResult.opSuccess)) ∧
       (∀ b, e.outcome = CallOutcome.failure b →
          cbExecute cfg r e = (⟨CState.opened, r.failureCount, e.now⟩, CallResult.opFailure))) ∧
    (r.state = CState.halfOpen →
       (e.outcome = CallOutcome.success →
          cbExecute cfg r e = (⟨CState.closed, 0, r.openedAt⟩, CallResult.opSuccess)) ∧
       (∀ b, e.outcome = CallOutcome.failure b →
          cbExecute cfg r e = (⟨CState.opened, r.failureCount, e.now⟩, CallResult.opFailure))) := by
  obtain ⟨s, fc, oa⟩ := r
  obtain ⟨now, oc, fb⟩ := e
  refine ⟨?_, ?_, ?_, ?_, ?_, ?_, ?_⟩
  · intro hs ho
    subst hs; subst ho
    rfl
  · intro hs ho hlt
    subst hs; subst ho
    simp only [cbExecute, cbAdmit, cbSettle]
    rw [if_neg (not_le.mpr hlt)]
  · intro hs ho hge
    subst hs; subst ho
    simp only [cbExecute, cbAdmit, cbSettle]
    rw [if_pos hge]
  · intro hs ho
    subst hs; subst ho
    rfl
  · intro hs hlt
    subst hs
    simp only [cbExecute, cbAdmit]
    rw [if_neg (not_le.mpr hlt)]
    rfl
  · intro hs hge
    subst hs
    simp only [cbExecute, cbAdmit]
    rw [if_pos hge]
    refine ⟨rfl, ?_, ?_⟩
    · intro ho
      subst ho
      rfl
    · intro b ho
      subst ho
      rfl
  · intro hs
    subst hs
    refine ⟨?_, ?_⟩
    · intro ho
      subst ho
      rfl
    · intro b ho
      subst ho
      rfl

/-- Witness for C1 at a concrete input. -/
theorem C1_circuit_breaker_transitions_witness :
    cbExecute ⟨3, 5⟩ ⟨CState.closed, 2, 0⟩ ⟨1, CallOutcome.success, false⟩ =
      (⟨CState.closed, 0, 0⟩, CallResult.opSuccess) :=
  (C1_circuit_breaker_transitions ⟨3, 5⟩ ⟨CState.closed, 2, 0⟩
    ⟨1, CallOutcome.success, false⟩).1 rfl rfl

end Circuit

namespace Circuit

/-- Relation between consecutive stored records: from OPEN the next stored
record is again OPEN or is HALF_OPEN, never anything else. -/
def stepOK (a b : CRecord) : Prop :=
  a.state = CState.opened → b.state = CState.opened ∨ b.state = CState.halfOpen

theorem cbAdmit_stepOK (cfg : CConfig) (r : CRecord) (now : ℚ) :
    stepOK r (cbAdmit cfg r now) := by
  intro h
  obtain ⟨s, fc, oa⟩ := r
  cases s with
  | closed => exact absurd h (by simp)
  | halfOpen => exact absurd h (by simp)
  | opened =>
      simp only [cbAdmit]
      by_cases hc : cfg.recoveryTimeout ≤ now - oa
      · rw [if_pos hc]
        exact Or.inr rfl
      · rw [if_neg hc]
        exact Or.inl rfl

theorem cbSettle_stepOK (cfg : CConfig) (r : CRecord) (e : CallEvent) :
    stepOK r (cbSettle cfg r e).1 := by
  intro h
  obtain ⟨s, fc, oa⟩ := r
  cases s with
  | closed => exact absurd h (by simp)
  | halfOpen => exact absurd h (by simp)
  | opened => exact Or.inl rfl

/-- The head of a call trace is the initial record. -/
theorem cbTrace_head (cfg : CConfig) (r : CRecord) (es : List CallEvent) :
    (cbTrace cfg r es).head? = some r := by
  cases es <;> rfl

/-- The last record of a call trace is the record after running the calls. -/
theorem cbTrace_getLastD (cfg : CConfig) (r d : CRecord) (es : List CallEvent) :
    (cbTrace cfg r es).getLastD d = cbRun cfg r es := by
  induction es generalizing r d with
  | nil => rfl
  | cons e es ih =>
      simp only [cbTrace, List.getLastD_cons, cbRun]
      exact ih _ _

/-- Consecutive records in a call trace satisfy `stepOK`. -/
theorem cbTrace_chain (cfg : CConfig) (r : CRecord) (es : List CallEvent) :
    (cbTrace cfg r es).Chain' stepOK := by
  induction es generalizing r with
  | nil => simp [cbTrace]
  | cons e es ih =>
      simp only [cbTrace]
      refine List.chain'_cons.mpr ⟨cbAdmit_stepOK cfg r e.now, ?_⟩
      refine List.chain'_cons'.mpr ⟨?_, ih _⟩
      intro y hy
      rw [cbTrace_head] at hy
      obtain rfl : y = (cbSettle cfg (cbAdmit cfg r e.now) e).1 := by
        exact (Option.some_injective _ hy.symm)
      exact cbSettle_stepOK cfg _ e

/-- In any `stepOK`-chained list that starts OPEN and ends CLOSED, some
element is HALF_OPEN. -/
theorem chain_open_to_closed (l : List CRecord) (hch : l.Chain' stepOK) :
    ∀ a : CRecord, l.head? = some a → a.state = CState.opened →
      (l.getLastD a).state = CState.closed →
      ∃ x ∈ l, x.state = CState.halfOpen := by
  induction l with
  | nil =>
      intro a ha
      simp at ha
  | cons b t ih =>
      intro a ha hopen hlast
      obtain rfl : b = a := by simpa using ha
      cases t with
      | nil =>
          simp only [List.getLastD_cons, List.getLastD_nil] at hlast
          rw [hopen] at hlast
          exact absurd hlast (by simp)
      | cons c t' =>
          have hstep : stepOK b c := (List.chain'_cons.mp hch).1
          have hch' : (c :: t').Chain' stepOK := (List.chain'_cons.mp hch).2
          rcases hstep hopen with hc | hc
          · have hlast' : ((c :: t').getLastD c).state = CState.closed := by
              simp only [List.getLastD_cons] at hlast ⊢
              exact hlast
            obtain ⟨x, hx, hxs⟩ := ih hch' c rfl hc hlast'
            exact ⟨x, List.mem_cons_of_mem _ hx, hxs⟩
          · exact ⟨c, by simp, hc⟩

/-- C8: no sequence of `execute` calls takes an OPEN record to CLOSED
without the stored record first passing through HALF_OPEN. -/
theorem C8_open_to_closed_passes_half_open (cfg : CConfig) (r : CRecord)
    (es : List CallEvent) (h0 : r.state = CState.opened)
    (hc : (cbRun cfg r es).state = CState.closed) :
    ∃ x ∈ cbTrace cfg r es, x.state = CState.halfOpen := by
  refine chain_open_to_closed _ (cbTrace_chain cfg r es) r (cbTrace_head cfg r es) h0 ?_
  rw [cbTrace_getLastD]
  exact hc

/-- Witness for C8 at a concrete input: an open breaker (threshold 3,
recovery timeout 5, opened at t=0) probed successfully at t=10. -/
theorem C8_open_to_closed_passes_half_open_witness :
    ∃ x ∈ cbTrace ⟨3, 5⟩ ⟨CState.opened, 3, 0⟩ [⟨10, CallOutcome.success, false⟩],
      x.state = CState.halfOpen :=
  C8_open_to_closed_passes_half_open ⟨3, 5⟩ ⟨CState.opened, 3, 0⟩
    [⟨10, CallOutcome.success, false⟩] rfl
    (by norm_num [cbRun, cbExecute, cbAdmit, cbSettle])

end Circuit

namespace Retry

/-- Modelled from the spec: retry parameters (spec 4.4). -/
structure RetryConfig where
  maxRetries : Nat
  baseDelay : ℚ
  maxDelay : ℚ
  multiplier : ℚ
  jitter : ℚ

/-- Behaviour of one attempt of the wrapped operation: a success value, or
an error together with its `retryable` classification. -/
inductive AttemptResult (α ε : Type)
  | ok (v : α)
  | err (e : ε) (retryable : Bool)

/-- Modelled from the spec: delay slept after a retryable failure on
attempt `k` (spec 4.4): `min(max_delay, base_delay * multiplier^(k-1))`
scaled by the jitter factor `1 - jitter + 2*jitter*random01()`, clamped at
`>= 0`; `r` is the sampled `random01()` value. -/
def retryDelay (cfg : RetryConfig) (k : Nat) (r : ℚ) : ℚ :=
  max 0 (min cfg.maxDelay (cfg.baseDelay * cfg.multiplier ^ (k - 1)) *
    (1 - cfg.jitter + 2 * cfg.jitter * r))

/-- Modelled from the spec: the retry loop (spec 4.4).  `op k` is what
attempt `k` (1-based) does, `rand k` the `random01()` sample drawn after a
failed attempt `k`, `remaining` the retries still allowed.  Returns the
final outcome, the list of slept delays, and the number of attempts made. -/
def retryAux (cfg : RetryConfig) (op : Nat → AttemptResult α ε) (rand : Nat → ℚ) :
    Nat → Nat → Except ε α × List ℚ × Nat
  | remaining, k =>
    match op k, remaining with
    | AttemptResult.ok v, _ => (Except.ok v, [], 1)
    | AttemptResult.err e false, _ => (Except.error e, [], 1)
    | AttemptResult.err _ true, remaining' + 1 =>
        let rest := retryAux cfg op rand remaining' (k + 1)
        (rest.1, retryDelay cfg k (rand k) :: rest.2.1, rest.2.2 + 1)
    | AttemptResult.err e true, 0 => (Except.error e, [], 1)

/-- A full run: attempt 1 with `max_retries` retries allowed. -/
def retryRun (cfg : RetryConfig) (op : Nat → AttemptResult α ε) (rand : Nat → ℚ) :
    Except ε α × List ℚ × Nat :=
  retryAux cfg op rand cfg.maxRetries 1

/-- Attempts made never exceed the retries allowed plus one. -/
theorem retryAux_attempts_le (cfg : RetryConfig) (op : Nat → AttemptResult α ε)
    (rand : Nat → ℚ) (remaining k : Nat) :
    (retryAux cfg op rand remaining k).2.2 ≤ remaining + 1 := by
  induction remaining generalizing k with
  | zero =>
      cases h : op k with
      | ok v => rw [retryAux.eq_def]; simp [h]
      | err e retr => rw [retryAux.eq_def]; cases retr <;> simp [h]
  | succ n ih =>
      cases h : op k with
      | ok v => rw [retryAux.eq_def]; simp [h]
      | err e retr =>
          cases retr
          · rw [retryAux.eq_def]; simp [h]
          · rw [retryAux.eq_def]
            simp only [h]
            have := ih (k + 1)
            omega

/-- When every attempt fails with a retryable error, a run with `remaining`
retries allowed starting at attempt `k` makes exactly `remaining + 1`
attempts, sleeps the backoff delay after each but the last, and surfaces
the last attempt's error. -/
theorem retryAux_all_fail (cfg : RetryConfig) (op : Nat → AttemptResult α ε)
    (rand : Nat → ℚ) (es : Nat → ε) (hop : ∀ j, op j = AttemptResult.err (es j) true) :
    ∀ remaining k,
      retryAux cfg op rand remaining k =
        (Except.error (es (k + remaining)),
         (List.range remaining).map (fun i => retryDelay cfg (k + i) (rand (k + i))),
         remaining + 1) := by
  intro remaining
  induction remaining with
  | zero =>
      intro k
      rw [retryAux.eq_def]
      simp [hop k]
  | succ n ih =>
      intro k
      rw [retryAux.eq_def]
      simp only [hop k, ih (k + 1)]
      have h1 : k + 1 + n = k + (n + 1) := by omega
      have h2 : (List.range (n + 1)).map (fun i => retryDelay cfg (k + i) (rand (k + i))) =
          retryDelay cfg k (rand k) ::
            (List.range n).map (fun i => retryDelay cfg (k + 1 + i) (rand (k + 1 + i))) := by
        rw [List.range_succ_eq_map, List.map_cons, List.map_map]
        refine congrArg₂ _ (by simp) (List.map_congr_left ?_)
        intro i _
        have h3 : k + (i + 1) = k + 1 + i := by omega
        simp [Function.comp, h3]
      rw [h2, h1]

end Retry

namespace Retry

/-- C4: a success returns immediately; a non-retryable error propagates
unchanged with no further attempt; a retryable error with no retries left
propagates unchanged; a retryable failure on an attempt with retries left
sleeps `max(0, min(max_delay, base_delay*multiplier^(k-1)) *
(1 - jitter + 2*jitter*random01()))` and re-invokes the operation; a run
makes at most `max_retries + 1` attempts, and when every attempt fails
retryable it makes exactly `max_retries + 1` attempts and surfaces the last
error. -/
theorem C4_retry_engine {α ε : Type} (cfg : RetryConfig) (op : Nat → AttemptResult α ε)
    (rand : Nat → ℚ) (k rem : Nat) :
    (∀ v, op k = AttemptResult.ok v →
       retryAux cfg op rand rem k = (Except.ok v, [], 1)) ∧
    (∀ e, op k = AttemptResult.err e false →
       retryAux cfg op rand rem k = (Except.error e, [], 1)) ∧
    (∀ e, op k = AttemptResult.err e true →
       retryAux cfg op rand 0 k = (Except.error e, [], 1)) ∧
    (∀ e n, rem = n + 1 → op k = AttemptResult.err e true →
       retryAux cfg op rand rem k =
         ((retryAux cfg op rand n (k + 1)).1,
          retryDelay cfg k (rand k) :: (retryAux cfg op rand n (k + 1)).2.1,
          (retryAux cfg op rand n (k + 1)).2.2 + 1)) ∧
    ((retryRun cfg op rand).2.2 ≤ cfg.maxRetries + 1) ∧
    (∀ es : Nat → ε, (∀ j, op j = AttemptResult.err (es j) true) →
       retryRun cfg op rand =
         (Except.error (es (1 + cfg.maxRetries)),
          (List.range cfg.maxRetries).map
            (fun i => retryDelay cfg (1 + i) (rand (1 + i))),
          cfg.maxRetries + 1)) := by
  refine ⟨?_, ?_, ?_, ?_, ?_, ?_⟩
  · intro v h
    rw [retryAux.eq_def]
    cases rem <;> simp [h]
  · intro e h
    rw [retryAux.eq_def]
    cases rem <;> simp [h]
  · intro e h
    rw [retryAux.eq_def]
    simp [h]
  · intro e n hrem h
    subst hrem
    rw [retryAux.eq_def]
    simp [h]
  · exact retryAux_attempts_le cfg op rand cfg.maxRetries 1
  · intro es hop
    exact retryAux_all_fail cfg op rand es hop cfg.maxRetries 1

/-- Witness for C4 at a concrete input: a retryable error with no retries
left propagates unchanged. -/
theorem C4_retry_engine_witness :
    retryAux (⟨0, 1, 10, 2, 0⟩ : RetryConfig)
      (fun _ => (AttemptResult.err (0 : Nat) true : AttemptResult Unit Nat)) (fun _ => 0) 0 1 =
      (Except.error 0, ([] : List ℚ), 1) :=
  (C4_retry_engine ⟨0, 1, 10, 2, 0⟩
    (fun _ => (AttemptResult.err (0 : Nat) true : AttemptResult Unit Nat))
    (fun _ => (0 : ℚ)) 1 0).2.2.1 0 rfl

end Retry

namespace TaskQueue

/-- Task priority classes (spec 3, "Task descriptor"). -/
inductive Priority
  | low
  | normal
  | high
  | critical
deriving DecidableEq

/-- Numeric rank of a priority class: higher is served first. -/
def prioVal : Priority → Nat
  | Priority.low => 0
  | Priority.normal => 1
  | Priority.high => 2
  | Priority.critical => 3

/-- A queued task: priority class and enqueue sequence number (standing in
for the enqueue timestamp; enqueuing appends, so list order is enqueue
order). -/
structure QTask where
  pri : Priority
  seq : Nat
deriving DecidableEq

/-- Modelled from the spec: dequeue for the priority admission queue
(spec 3 "Admission queue", 4.7.2 step 5): remove a task of maximal
priority, the earliest-enqueued one among equal priorities; on a list in
enqueue order that is the first task whose priority is not exceeded later
in the list.  Ties prefer the earlier task. -/
def dequeueBest : List QTask → Option (QTask × List QTask)
  | [] => none
  | t :: ts =>
      match dequeueBest ts with
      | none => some (t, ts)
      | some (u, rest) =>
          if prioVal t.pri < prioVal u.pri then some (u, t :: rest)
          else some (t, ts)

/-- Repeatedly dequeue until the queue is empty (with fuel). -/
def drainAux : Nat → List QTask → List QTask
  | 0, _ => []
  | fuel + 1, l =>
      match dequeueBest l with
      | none => []
      | some (u, rest) => u :: drainAux fuel rest

/-- Completion order of a queue served by a single permit
(`max_concurrent = 1`): tasks are dispatched, and hence complete, in
dequeue order. -/
def drain (l : List QTask) : List QTask :=
  drainAux l.length l

/-- An empty dequeue happens only on the empty queue. -/
theorem dequeueBest_none (l : List QTask) : dequeueBest l = none ↔ l = [] := by
  cases l with
  | nil => simp [dequeueBest]
  | cons t ts =>
      simp only [dequeueBest]
      cases hts : dequeueBest ts with
      | none => simp
      | some p =>
          obtain ⟨v, rest'⟩ := p
          by_cases hlt : prioVal t.pri < prioVal v.pri
          · simp [hlt]
          · simp [hlt]

/-- A dequeue from a nonempty queue yields a maximal-priority task. -/
theorem dequeueBest_max (l : List QTask) (u : QTask) (rest : List QTask)
    (h : dequeueBest l = some (u, rest)) :
    ∀ x ∈ l, prioVal x.pri ≤ prioVal u.pri := by
  induction l generalizing u rest with
  | nil => simp [dequeueBest] at h
  | cons t ts ih =>
      simp only [dequeueBest] at h
      cases hts : dequeueBest ts with
      | none =>
          simp only [hts] at h
          obtain ⟨rfl, rfl⟩ : t = u ∧ ts = rest := by
            simpa using h
          have hnil : ts = [] := (dequeueBest_none ts).mp hts
          subst hnil
          intro x hx
          rcases List.mem_cons.mp hx with rfl | hx
          · exact le_refl _
          · simp at hx
      | some p =>
          obtain ⟨v, rest'⟩ := p
          simp only [hts] at h
          by_cases hlt : prioVal t.pri < prioVal v.pri
          · rw [if_pos hlt] at h
            obtain ⟨rfl, rfl⟩ : v = u ∧ t :: rest' = rest := by
              simpa using h
            intro x hx
            rcases List.mem_cons.mp hx with rfl | hx
            · exact le_of_lt hlt
            · exact ih v rest' hts x hx
          · rw [if_neg hlt] at h
            obtain ⟨rfl, rfl⟩ : t = u ∧ ts = rest := by
              simpa using h
            intro x hx
            rcases List.mem_cons.mp hx with rfl | hx
            · exact le_refl _
            · exact le_trans (ih v rest' hts x hx) (not_lt.mp hlt)

/-- A dequeue removes exactly one occurrence, keeps the rest in order, and
every strictly earlier-enqueued task has strictly lower priority (so among
equal priorities the earliest-enqueued task is the one dequeued). -/
theorem dequeueBest_fifo (l : List QTask) (u : QTask) (rest : List QTask)
    (h : dequeueBest l = some (u, rest)) :
    ∃ pre post, l = pre ++ u :: post ∧ rest = pre ++ post ∧
      ∀ x ∈ pre, prioVal x.pri < prioVal u.pri := by
  induction l generalizing u rest with
  | nil => simp [dequeueBest] at h
  | cons t ts ih =>
      simp only [dequeueBest] at h
      cases hts : dequeueBest ts with
      | none =>
          simp only [hts] at h
          obtain ⟨rfl, rfl⟩ : t = u ∧ ts = rest := by
            simpa using h
          exact ⟨[], ts, rfl, rfl, by simp⟩
      | some p =>
          obtain ⟨v, rest'⟩ := p
          simp only [hts] at h
          by_cases hlt : prioVal t.pri < prioVal v.pri
          · rw [if_pos hlt] at h
            obtain ⟨rfl, rfl⟩ : v = u ∧ t :: rest' = rest := by
              simpa using h
            obtain ⟨pre, post, h1, h2, h3⟩ := ih v rest' hts
            refine ⟨t :: pre, post, by simp [h1], by simp [h2], ?_⟩
            intro x hx
            rcases List.mem_cons.mp hx with rfl | hx
            · exact hlt
            · exact h3 x hx
          · rw [if_neg hlt] at h
            obtain ⟨rfl, rfl⟩ : t = u ∧ ts = rest := by
              simpa using h
            exact ⟨[], ts, rfl, rfl, by simp⟩

end TaskQueue

namespace TaskQueue

/-- C3: the dequeued task has priority at least that of every queued task;
among equal priorities the earliest-enqueued task is dequeued first (every
task enqueued before it has strictly lower priority, and the rest of the
queue is preserved in order); with one permit, draining 3 LOW then 1 HIGH
then 1 CRITICAL completes CRITICAL, HIGH, LOW, LOW, LOW. -/
theorem C3_priority_queue (l : List QTask) (u : QTask) (rest : List QTask)
    (h : dequeueBest l = some (u, rest)) :
    (∀ x ∈ l, prioVal x.pri ≤ prioVal u.pri) ∧
    (∃ pre post, l = pre ++ u :: post ∧ rest = pre ++ post ∧
       ∀ x ∈ pre, prioVal x.pri < prioVal u.pri) ∧
    drain [⟨Priority.low, 0⟩, ⟨Priority.low, 1⟩, ⟨Priority.low, 2⟩,
           ⟨Priority.high, 3⟩, ⟨Priority.critical, 4⟩] =
      [⟨Priority.critical, 4⟩, ⟨Priority.high, 3⟩,
       ⟨Priority.low, 0⟩, ⟨Priority.low, 1⟩, ⟨Priority.low, 2⟩] :=
  ⟨dequeueBest_max l u rest h, dequeueBest_fifo l u rest h, by decide⟩

/-- Witness for C3 at a concrete input. -/
theorem C3_priority_queue_witness :
    (∀ x ∈ [(⟨Priority.low, 0⟩ : QTask), ⟨Priority.high, 1⟩],
       prioVal x.pri ≤ prioVal Priority.high) ∧
    (∃ pre post,
       [(⟨Priority.low, 0⟩ : QTask), ⟨Priority.high, 1⟩] =
         pre ++ (⟨Priority.high, 1⟩ : QTask) :: post ∧
       [(⟨Priority.low, 0⟩ : QTask)] = pre ++ post ∧
       ∀ x ∈ pre, prioVal x.pri < prioVal Priority.high) ∧
    drain [⟨Priority.low, 0⟩, ⟨Priority.low, 1⟩, ⟨Priority.low, 2⟩,
           ⟨Priority.high, 3⟩, ⟨Priority.critical, 4⟩] =
      [⟨Priority.critical, 4⟩, ⟨Priority.high, 3⟩,
       ⟨Priority.low, 0⟩, ⟨Priority.low, 1⟩, ⟨Priority.low, 2⟩] :=
  C3_priority_queue [⟨Priority.low, 0⟩, ⟨Priority.high, 1⟩] ⟨Priority.high, 1⟩
    [⟨Priority.low, 0⟩] (by decide)

end TaskQueue

namespace Timeout

/-- Modelled from the spec: an asynchronous operation abstracted by its
completion time (`none` = suspends indefinitely) and its result value
(spec 4.5). -/
structure ModelOp (α : Type) where
  dur : Option ℚ
  val : α

/-- Modelled from the spec: the timeout wrapper (spec 4.5) as an
operation-to-operation transformer.  If the operation completes no later
than the deadline its result is returned unchanged at its own completion
time; otherwise the operation is cancelled and the wrapper completes at
exactly time `t` with DeadlineExceeded (`Except.error ()`). -/
def timeoutOp (t : ℚ) (op : ModelOp α) : ModelOp (Except Unit α) :=
  match op.dur with
  | none => ⟨some t, Except.error ()⟩
  | some d => if d ≤ t then ⟨some d, Except.ok op.val⟩ else ⟨some t, Except.error ()⟩

/-- Collapse of nested timeout results: either layer's DeadlineExceeded is
the same error kind. -/
def flattenExcept : Except Unit (Except Unit α) → Except Unit α
  | Except.error _ => Except.error ()
  | Except.ok r => r

end Timeout

namespace Timeout

/-- C6: a suspending operation is cancelled and the wrapper returns
DeadlineExceeded at exactly the deadline `t` (hence within `t + eps` for
any scheduling slack `eps >= 0`); an operation that completes first has its
result returned unchanged; nested timeout wrappers behave as a single
wrapper with the minimum of the two deadlines. -/
theorem C6_timeout_wrapper (t t1 t2 : ℚ) {α : Type} (op : ModelOp α) :
    (op.dur = none → timeoutOp t op = ⟨some t, Except.error ()⟩) ∧
    (∀ d, op.dur = some d → d ≤ t → timeoutOp t op = ⟨some d, Except.ok op.val⟩) ∧
    (∀ d, op.dur = some d → t < d → timeoutOp t op = ⟨some t, Except.error ()⟩) ∧
    ((timeoutOp t1 (timeoutOp t2 op)).dur = (timeoutOp (min t1 t2) op).dur ∧
     flattenExcept (timeoutOp t1 (timeoutOp t2 op)).val = (timeoutOp (min t1 t2) op).val) := by
  obtain ⟨dur, v⟩ := op
  refine ⟨?_, ?_, ?_, ?_⟩
  · intro h
    subst h
    rfl
  · intro d h hle
    subst h
    simp only [timeoutOp]
    rw [if_pos hle]
  · intro d h hlt
    subst h
    simp only [timeoutOp]
    rw [if_neg (not_le.mpr hlt)]
  · cases dur with
    | none =>
        simp only [timeoutOp]
        by_cases hc : t2 ≤ t1
        · rw [if_pos hc, min_eq_right hc]
          exact ⟨rfl, rfl⟩
        · rw [if_neg hc, min_eq_left (not_le.mp hc).le]
          exact ⟨rfl, rfl⟩
    | some d =>
        simp only [timeoutOp]
        by_cases h2 : d ≤ t2
        · rw [if_pos h2]
          simp only [timeoutOp]
          by_cases h1 : d ≤ t1
          · rw [if_pos h1, if_pos (le_min h1 h2)]
            exact ⟨rfl, rfl⟩
          · rw [if_neg h1, min_eq_left (le_trans (not_le.mp h1).le h2), if_neg h1]
            exact ⟨rfl, rfl⟩
        · rw [if_neg h2]
          simp only [timeoutOp]
          by_cases hc : t2 ≤ t1
          · rw [if_pos hc, min_eq_right hc, if_neg h2]
            exact ⟨rfl, rfl⟩
          · rw [if_neg hc, min_eq_left (not_le.mp hc).le,
              if_neg (fun hd => h2 (le_trans hd (not_le.mp hc).le))]
            exact ⟨rfl, rfl⟩

end Timeout

namespace Timeout

/-- Witness for C6 at a concrete input: an operation completing at time 1
under a 3-second timeout returns its result unchanged. -/
theorem C6_timeout_wrapper_witness :
    timeoutOp 3 (⟨some 1, (42 : Nat)⟩ : ModelOp Nat) =
      ⟨some 1, Except.ok (⟨some 1, (42 : Nat)⟩ : ModelOp Nat).val⟩ :=
  (C6_timeout_wrapper 3 0 0 ⟨some 1, 42⟩).2.1 1 rfl (by norm_num)

end Timeout

namespace Bulkhead

/-- Modelled from the spec: bulkhead configuration (spec 4.6). -/
structure BhConfig where
  maxConcurrent : Nat
  maxQueueSize : Nat
  waitTimeout : ℚ

/-- A waiter in the admission queue: task identity and enqueue time. -/
structure Waiter where
  id : Nat
  enq : ℚ
deriving DecidableEq

/-- Modelled from the spec: bulkhead state (spec 3, "Bulkhead state"):
current holder count and FIFO waiter queue. -/
structure BhState where
  inUse : Nat
  waiters : List Waiter

/-- Outcome of `execute` at submission time. -/
inductive SubmitOutcome
  | run
  | queued
  | rejectedFull
deriving DecidableEq

/-- Modelled from the spec: submission (spec 4.6 steps 1-2): run
immediately while a slot is free, enqueue FIFO while the waiter queue has
room, otherwise fail immediately with BulkheadFull. -/
def bhSubmit (cfg : BhConfig) (st : BhState) (w : Waiter) : BhState × SubmitOutcome :=
  if st.inUse < cfg.maxConcurrent then (⟨st.inUse + 1, st.waiters⟩, SubmitOutcome.run)
  else if st.waiters.length < cfg.maxQueueSize then
    (⟨st.inUse, st.waiters ++ [w]⟩, SubmitOutcome.queued)
  else (st, SubmitOutcome.rejectedFull)

/-- Modelled from the spec: completion of a running task on any exit path,
success, failure or cancellation (spec 4.6 step 3): decrement the holder
count exactly once, then admit the next FIFO waiter, who takes the freed
slot (so the count stays put when a waiter is admitted). -/
def bhExit (st : BhState) : BhState × Option Waiter :=
  match st.waiters with
  | [] => (⟨st.inUse - 1, []⟩, none)
  | u :: rest => (⟨st.inUse, rest⟩, some u)

/-- Modelled from the spec: waiters whose admission has not come within
`wait_timeout` fail with BulkheadTimeout and leave the queue; the second
component lists the waiters that so failed. -/
def bhTimeoutExpired (cfg : BhConfig) (st : BhState) (now : ℚ) : BhState × List Waiter :=
  (⟨st.inUse, st.waiters.filter (fun u => now - u.enq < cfg.waitTimeout)⟩,
   st.waiters.filter (fun u => ¬(now - u.enq < cfg.waitTimeout)))

/-- The observable events a bulkhead state reacts to. -/
inductive BhEvent
  | submit (w : Waiter)
  | complete
  | timeoutSweep (now : ℚ)

/-- One event step. -/
def bhStep (cfg : BhConfig) (st : BhState) : BhEvent → BhState
  | BhEvent.submit w => (bhSubmit cfg st w).1
  | BhEvent.complete => (bhExit st).1
  | BhEvent.timeoutSweep now => (bhTimeoutExpired cfg st now).1

/-- State after a sequence of events. -/
def bhRun (cfg : BhConfig) (st : BhState) : List BhEvent → BhState
  | [] => st
  | e :: es => bhRun cfg (bhStep cfg st e) es

/-- Each step preserves the concurrency cap. -/
theorem bhStep_inUse_le (cfg : BhConfig) (st : BhState) (e : BhEvent)
    (h : st.inUse ≤ cfg.maxConcurrent) : (bhStep cfg st e).inUse ≤ cfg.maxConcurrent := by
  cases e with
  | submit w =>
      simp only [bhStep, bhSubmit]
      by_cases h1 : st.inUse < cfg.maxConcurrent
      · rw [if_pos h1]
        exact h1
      · rw [if_neg h1]
        by_cases h2 : st.waiters.length < cfg.maxQueueSize
        · rw [if_pos h2]
          exact h
        · rw [if_neg h2]
          exact h
  | complete =>
      simp only [bhStep, bhExit]
      cases hw : st.waiters with
      | nil => exact le_trans (Nat.sub_le _ _) h
      | cons u rest => exact h
  | timeoutSweep now => exact h

/-- The cap holds after any sequence of events. -/
theorem bhRun_inUse_le (cfg : BhConfig) (st : BhState) (evs : List BhEvent)
    (h : st.inUse ≤ cfg.maxConcurrent) : (bhRun cfg st evs).inUse ≤ cfg.maxConcurrent := by
  induction evs generalizing st with
  | nil => exact h
  | cons e es ih => exact ih _ (bhStep_inUse_le cfg st e h)

end Bulkhead

namespace Bulkhead

/-- C5: `in_use <= max_concurrent` is preserved by every event sequence;
a submission runs immediately when a slot is free, enqueues FIFO while the
waiter queue has room, and fails immediately with BulkheadFull when it is
full; on every exit the holder count drops exactly once and the next FIFO
waiter (the queue head) is admitted into the freed slot; exactly the
waiters whose wait has reached `wait_timeout` fail with BulkheadTimeout. -/
theorem C5_bulkhead (cfg : BhConfig) (st : BhState) (w : Waiter)
    (evs : List BhEvent) (now : ℚ) :
    (st.inUse ≤ cfg.maxConcurrent → (bhRun cfg st evs).inUse ≤ cfg.maxConcurrent) ∧
    (st.inUse < cfg.maxConcurrent →
       bhSubmit cfg st w = (⟨st.inUse + 1, st.waiters⟩, SubmitOutcome.run)) ∧
    (cfg.maxConcurrent ≤ st.inUse → st.waiters.length < cfg.maxQueueSize →
       bhSubmit cfg st w = (⟨st.inUse, st.waiters ++ [w]⟩, SubmitOutcome.queued)) ∧
    (cfg.maxConcurrent ≤ st.inUse → cfg.maxQueueSize ≤ st.waiters.length →
       bhSubmit cfg st w = (st, SubmitOutcome.rejectedFull)) ∧
    (st.waiters = [] → bhExit st = (⟨st.inUse - 1, []⟩, none)) ∧
    (∀ u rest, st.waiters = u :: rest → bhExit st = (⟨st.inUse, rest⟩, some u)) ∧
    (∀ u ∈ st.waiters,
       (u ∈ (bhTimeoutExpired cfg st now).2 ↔ cfg.waitTimeout ≤ now - u.enq) ∧
       (u ∈ (bhTimeoutExpired cfg st now).1.waiters ↔ now - u.enq < cfg.waitTimeout)) := by
  refine ⟨bhRun_inUse_le cfg st evs, ?_, ?_, ?_, ?_, ?_, ?_⟩
  · intro h
    simp only [bhSubmit, if_pos h]
  · intro h1 h2
    simp only [bhSubmit, if_neg (not_lt.mpr h1), if_pos h2]
  · intro h1 h2
    simp only [bhSubmit, if_neg (not_lt.mpr h1), if_neg (not_lt.mpr h2)]
  · intro h
    simp only [bhExit, h]
  · intro u rest h
    simp only [bhExit, h]
  · intro u hu
    constructor
    · simp only [bhTimeoutExpired, List.mem_filter]
      constructor
      · intro ⟨_, hk⟩
        simpa using not_lt.mp (by simpa using hk)
      · intro hk
        exact ⟨hu, by simpa using not_lt.mpr hk⟩
    · simp only [bhTimeoutExpired, List.mem_filter]
      constructor
      · intro ⟨_, hk⟩
        simpa using hk
      · intro hk
        exact ⟨hu, by simpa using hk⟩

/-- Witness for C5 at a concrete input: a free bulkhead admits the
submission immediately. -/
theorem C5_bulkhead_witness :
    bhSubmit ⟨2, 2, 1⟩ ⟨0, []⟩ ⟨0, 0⟩ = (⟨1, []⟩, SubmitOutcome.run) :=
  (C5_bulkhead ⟨2, 2, 1⟩ ⟨0, []⟩ ⟨0, 0⟩ [] 0).2.1 (by norm_num)

end Bulkhead

namespace BumpVersion

/-- Boolean list-prefix test (chars compared by equality). -/
def listPrefix : List Char → List Char → Bool
  | [], _ => true
  | _ :: _, [] => false
  | a :: l, b :: m => a = b && listPrefix l m

/-- Quote class of the pattern: the regex `["']`. -/
def isQuote (c : Char) : Bool :=
  c = '"' || c = Char.ofNat 39

/-- The literal `version` at the start of the pattern. -/
def verKeyword : List Char :=
  ['v', 'e', 'r', 's', 'i', 'o', 'n']

/-- Expect the `version` keyword; on success return the remainder. -/
def expectKeyword (l : List Char) : Option (List Char) :=
  if listPrefix verKeyword l then some (l.drop 7) else none

/-- Expect one given character. -/
def expectChar (c : Char) : List Char → Option (List Char)
  | [] => none
  | x :: r => if x = c then some r else none

/-- Expect one quote character (the class `["']`). -/
def expectQuote : List Char → Option (List Char)
  | [] => none
  | x :: r => if isQuote x then some r else none

/-- Expect a literal (the escaped old version in the pattern). -/
def expectLit (lit l : List Char) : Option (List Char) :=
  if listPrefix lit l then some (l.drop lit.length) else none

/-- Embedded from `update_pyproject` in `scripts/bump_version.py`: one
attempt of the pattern `version\s*=\s*["'](re.escape(old))["']` at a given
position; on success returns the text after the match.  The regex class
`\s` is `isPySpace` (ASCII), and it may consume newlines. -/
def matchAssign (old l : List Char) : Option (List Char) :=
  (expectKeyword l).bind fun r0 =>
  (expectChar '=' (r0.dropWhile isPySpace)).bind fun r2 =>
  (expectQuote (r2.dropWhile isPySpace)).bind fun r4 =>
  (expectLit old r4).bind fun r5 =>
  expectQuote r5

/-- The replacement text `version = "{new_version}"` (interpreted
literally; the repository's version strings contain no backslashes). -/
def replTxt (new : List Char) : List Char :=
  ['v', 'e', 'r', 's', 'i', 'o', 'n', ' ', '=', ' ', '"'] ++ new ++ ['"']

theorem listPrefix_iff (l m : List Char) :
    listPrefix l m = true ↔ ∃ t, m = l ++ t := by
  induction l generalizing m with
  | nil => simp [listPrefix]
  | cons a l ih =>
      cases m with
      | nil =>
          simp only [listPrefix]
          constructor
          · intro h
            cases h
          · rintro ⟨t, ht⟩
            cases ht
      | cons b m =>
          simp only [listPrefix, Bool.and_eq_true, decide_eq_true_eq, ih]
          constructor
          · rintro ⟨rfl, t, rfl⟩
            exact ⟨t, rfl⟩
          · rintro ⟨t, ht⟩
            obtain ⟨rfl, rfl⟩ : b = a ∧ m = l ++ t := by
              rw [List.cons_append] at ht
              exact ⟨(List.cons.inj ht).1, (List.cons.inj ht).2⟩
            exact ⟨rfl, t, rfl⟩

/-- The drop-while of a list never gets longer. -/
theorem dropWhile_len_le (p : Char → Bool) (l : List Char) :
    (l.dropWhile p).length ≤ l.length := by
  induction l with
  | nil => simp
  | cons a t ih =>
      by_cases h : p a
      · rw [List.dropWhile_cons_of_pos h]
        exact le_trans ih (Nat.le_succ _)
      · rw [List.dropWhile_cons_of_neg h]

theorem expectKeyword_some_length (l r : List Char) (h : expectKeyword l = some r) :
    r.length + 7 ≤ l.length := by
  simp only [expectKeyword] at h
  by_cases hp : listPrefix verKeyword l
  · rw [if_pos hp] at h
    obtain rfl : l.drop 7 = r := by simpa using h
    obtain ⟨t, rfl⟩ := (listPrefix_iff _ _).mp hp
    simp [verKeyword]
  · rw [if_neg hp] at h
    cases h

theorem expectChar_some_length (c : Char) (l r : List Char) (h : expectChar c l = some r) :
    r.length + 1 = l.length := by
  cases l with
  | nil => cases h
  | cons x t =>
      simp only [expectChar] at h
      by_cases hx : x = c
      · rw [if_pos hx] at h
        obtain rfl : t = r := by simpa using h
        simp
      · rw [if_neg hx] at h
        cases h

theorem expectQuote_some_length (l r : List Char) (h : expectQuote l = some r) :
    r.length + 1 = l.length := by
  cases l with
  | nil => cases h
  | cons x t =>
      simp only [expectQuote] at h
      by_cases hx : isQuote x
      · rw [if_pos hx] at h
        obtain rfl : t = r := by simpa using h
        simp
      · rw [if_neg hx] at h
        cases h

theorem expectLit_some_length (lit l r : List Char) (h : expectLit lit l = some r) :
    r.length ≤ l.length := by
  simp only [expectLit] at h
  by_cases hp : listPrefix lit l
  · rw [if_pos hp] at h
    obtain rfl : l.drop lit.length = r := by simpa using h
    exact List.length_drop _ _ ▸ Nat.sub_le _ _
  · rw [if_neg hp] at h
    cases h

/-- A successful match consumes at least one character (in fact at least
ten). -/
theorem matchAssign_some_length (old l r : List Char) (h : matchAssign old l = some r) :
    r.length < l.length := by
  simp only [matchAssign, Option.bind_eq_some] at h
  obtain ⟨r0, h0, r2, h2, r4, h4, r5, h5, h6⟩ := h
  have l0 := expectKeyword_some_length l r0 h0
  have l2 := expectChar_some_length '=' _ r2 h2
  have l4 := expectQuote_some_length _ r4 h4
  have l5 := expectLit_some_length old r4 r5 h5
  have l6 := expectQuote_some_length r5 r h6
  have d0 := dropWhile_len_le isPySpace r0
  have d2 := dropWhile_len_le isPySpace r2
  omega

end BumpVersion

namespace BumpVersion

/-- Embedded from `update_pyproject` in `scripts/bump_version.py`: the
`re.sub` scan with `re.MULTILINE`.  The pattern is anchored with `^`, so a
match is attempted exactly at line starts (the beginning of the text and
each position after a newline); matches are non-overlapping, each replaced
by `version = "{new_version}"`; all other characters are copied. -/
def subScan (old new : List Char) : List Char → Bool → List Char
  | [], _ => []
  | c :: tl, atStart =>
      if atStart then
        match h : matchAssign old (c :: tl) with
        | some rest => replTxt new ++ subScan old new rest false
        | none => c :: subScan old new tl (c = '\n')
      else c :: subScan old new tl (c = '\n')
termination_by l _ => l.length
decreasing_by
  · exact matchAssign_some_length old (c :: tl) rest h
  · simp
  · simp

/-- Embedded from `update_pyproject` in `scripts/bump_version.py`: the
content written back is the content read, with the multiline `re.sub`
applied (the file write itself is abstracted to this content transform). -/
def update_pyproject (old_version new_version content : String) : String :=
  String.mk (subScan old_version.data new_version.data content.data true)

/-- Split on newlines, keeping empty pieces (the lines of the text). -/
def splitLines : List Char → List (List Char)
  | [] => [[]]
  | c :: rest =>
      if c = '\n' then [] :: splitLines rest
      else
        match splitLines rest with
        | [] => [[c]]
        | p :: ps => (c :: p) :: ps

/-- Per-line account of the substitution: a line whose start matches the
assignment pattern has the matched text replaced by
`version = "{new_version}"` and the rest of the line kept; any other line
is unchanged. -/
def lineTransform (old new line : List Char) : List Char :=
  match matchAssign old line with
  | some rest => replTxt new ++ rest
  | none => line

/-- A line on which the pattern runs off the end of the line inside one of
its `\s*` gaps (`version` followed only by spaces, or `version ... =`
followed only by spaces).  On such a line the `\s*` can swallow the
newline, so a match may span lines; everywhere else the scan is per-line. -/
def danglingLine (line : List Char) : Bool :=
  match expectKeyword line with
  | none => false
  | some r0 =>
      match r0.dropWhile isPySpace with
      | [] => true
      | c :: r2 =>
          if c = '=' then
            match r2.dropWhile isPySpace with
            | [] => true
            | _ :: _ => false
          else false

end BumpVersion

namespace BumpVersion

theorem expectChar_some_shape (c : Char) (l r : List Char) (h : expectChar c l = some r) :
    l = c :: r := by
  cases l with
  | nil => cases h
  | cons x t =>
      simp only [expectChar] at h
      by_cases hx : x = c
      · subst hx
        obtain rfl : t = r := by simpa using h
        rfl
      · rw [if_neg hx] at h
        cases h

theorem expectQuote_some_shape (l r : List Char) (h : expectQuote l = some r) :
    ∃ q, isQuote q = true ∧ l = q :: r := by
  cases l with
  | nil => cases h
  | cons x t =>
      simp only [expectQuote] at h
      by_cases hx : isQuote x
      · rw [if_pos hx] at h
        obtain rfl : t = r := by simpa using h
        exact ⟨x, hx, rfl⟩
      · rw [if_neg hx] at h
        cases h

theorem expectKeyword_some_shape (l r : List Char) (h : expectKeyword l = some r) :
    l = verKeyword ++ r := by
  simp only [expectKeyword] at h
  by_cases hp : listPrefix verKeyword l
  · rw [if_pos hp] at h
    obtain ⟨t, rfl⟩ := (listPrefix_iff _ _).mp hp
    obtain rfl : (verKeyword ++ t).drop 7 = r := by simpa using h
    have h7 : verKeyword.length = 7 := rfl
    rw [← h7, List.drop_left]
  · rw [if_neg hp] at h
    cases h

theorem expectLit_some_shape (lit l r : List Char) (h : expectLit lit l = some r) :
    l = lit ++ r := by
  simp only [expectLit] at h
  by_cases hp : listPrefix lit l
  · rw [if_pos hp] at h
    obtain ⟨t, rfl⟩ := (listPrefix_iff _ _).mp hp
    obtain rfl : (lit ++ t).drop lit.length = r := by simpa using h
    rw [List.drop_left]
  · rw [if_neg hp] at h
    cases h

theorem expectKeyword_append (l r s : List Char) (h : expectKeyword l = some r) :
    expectKeyword (l ++ s) = some (r ++ s) := by
  obtain rfl := expectKeyword_some_shape l r h
  simp only [expectKeyword]
  have hp : listPrefix verKeyword (verKeyword ++ r ++ s) = true :=
    (listPrefix_iff _ _).mpr ⟨r ++ s, by simp⟩
  rw [if_pos hp, List.append_assoc]
  have h7 : verKeyword.length = 7 := rfl
  rw [← h7, List.drop_left]

theorem expectLit_append (lit l r s : List Char) (h : expectLit lit l = some r) :
    expectLit lit (l ++ s) = some (r ++ s) := by
  obtain rfl := expectLit_some_shape lit l r h
  simp only [expectLit]
  have hp : listPrefix lit (lit ++ r ++ s) = true :=
    (listPrefix_iff _ _).mpr ⟨r ++ s, by simp⟩
  rw [if_pos hp, List.append_assoc, List.drop_left]

theorem dropWhile_append_cons (p : Char → Bool) (l s r : List Char) (c : Char)
    (h : l.dropWhile p = c :: r) : (l ++ s).dropWhile p = c :: (r ++ s) := by
  induction l with
  | nil => cases h
  | cons a t ih =>
      by_cases ha : p a
      · rw [List.dropWhile_cons_of_pos ha] at h
        rw [List.cons_append, List.dropWhile_cons_of_pos ha]
        exact ih h
      · rw [List.dropWhile_cons_of_neg ha] at h
        obtain ⟨rfl, rfl⟩ : a = c ∧ t = r := ⟨(List.cons.inj h).1, (List.cons.inj h).2⟩
        rw [List.cons_append, List.dropWhile_cons_of_neg ha]

theorem dropWhile_append_nil (p : Char → Bool) (l s : List Char)
    (h : l.dropWhile p = []) : (l ++ s).dropWhile p = s.dropWhile p := by
  induction l with
  | nil => simp
  | cons a t ih =>
      by_cases ha : p a
      · rw [List.dropWhile_cons_of_pos ha] at h
        rw [List.cons_append, List.dropWhile_cons_of_pos ha]
        exact ih h
      · rw [List.dropWhile_cons_of_neg ha] at h
        cases h

/-- A successful match extends to any longer text, consuming the same
characters. -/
theorem matchAssign_append_some (old l r s : List Char)
    (h : matchAssign old l = some r) :
    matchAssign old (l ++ s) = some (r ++ s) := by
  simp only [matchAssign, Option.bind_eq_some] at h
  obtain ⟨r0, h0, r2, h2, r4, h4, r5, h5, h6⟩ := h
  have s2 := expectChar_some_shape '=' _ r2 h2
  obtain ⟨q, hq, s4⟩ := expectQuote_some_shape _ r4 h4
  obtain ⟨q2, hq2, s6⟩ := expectQuote_some_shape r5 r h6
  simp only [matchAssign]
  rw [expectKeyword_append l r0 s h0]
  simp only [Option.some_bind]
  rw [dropWhile_append_cons isPySpace r0 s r2 '=' s2]
  simp only [expectChar, eq_self_iff_true, if_true, Option.some_bind]
  rw [dropWhile_append_cons isPySpace r2 s r4 q s4]
  simp only [expectQuote, if_pos hq, Option.some_bind]

  rw [expectLit_append old r4 r5 s h5]
  simp only [Option.some_bind]
  rw [s6]
  simp only [List.cons_append, expectQuote, if_pos hq2]

/-- A successful match leaves a suffix of the text. -/
theorem matchAssign_some_suffix (old l r : List Char)
    (h : matchAssign old l = some r) : ∃ pre, l = pre ++ r := by
  simp only [matchAssign, Option.bind_eq_some] at h
  obtain ⟨r0, h0, r2, h2, r4, h4, r5, h5, h6⟩ := h
  have sk := expectKeyword_some_shape l r0 h0
  have s2 := expectChar_some_shape '=' _ r2 h2
  obtain ⟨q, hq, s4⟩ := expectQuote_some_shape _ r4 h4
  have s5 := expectLit_some_shape old r4 r5 h5
  obtain ⟨q2, hq2, s6⟩ := expectQuote_some_shape r5 r h6
  have e0 : r0 = r0.takeWhile isPySpace ++ ('=' :: r2) := by
    rw [← s2, List.takeWhile_append_dropWhile]
  have e2 : r2 = r2.takeWhile isPySpace ++ (q :: r4) := by
    rw [← s4, List.takeWhile_append_dropWhile]
  refine ⟨verKeyword ++ r0.takeWhile isPySpace ++ '=' :: (r2.takeWhile isPySpace ++
    q :: (old ++ [q2])), ?_⟩
  rw [sk]
  conv_lhs => rw [e0]
  conv_lhs => rw [e2]
  rw [s5, s6]
  simp

end BumpVersion

namespace BumpVersion

theorem listPrefix_sep_none (lit l s : List Char) (sep : Char) (hsep : sep ∉ lit)
    (h : listPrefix lit l = false) : listPrefix lit (l ++ sep :: s) = false := by
  induction lit generalizing l with
  | nil => simp [listPrefix] at h
  | cons a lit' ih =>
      cases l with
      | nil =>
          have ha : a ≠ sep := fun hh => hsep (hh ▸ List.mem_cons_self a lit')
          simp only [List.nil_append, listPrefix]
          simp [ha]
      | cons b l' =>
          simp only [listPrefix, Bool.and_eq_false_iff] at h
          rcases h with h | h
          · simp only [List.cons_append, listPrefix, Bool.and_eq_false_iff]
            exact Or.inl h
          · simp only [List.cons_append, listPrefix, Bool.and_eq_false_iff]
            exact Or.inr (ih l' (fun hm => hsep (List.mem_cons_of_mem a hm)) h)

/-- The quote class does not contain the newline. -/
theorem isQuote_newline : isQuote '\n' = false := by decide

/-- A failed match on a line that is not dangling stays failed when the
line is followed by a newline and more text (so the multiline scan can be
read line by line). -/
theorem matchAssign_append_none (old line s : List Char) (hnl : '\n' ∉ old)
    (hd : danglingLine line = false) (h : matchAssign old line = none) :
    matchAssign old (line ++ '\n' :: s) = none := by
  cases h0 : expectKeyword line with
  | none =>
      have hp : listPrefix verKeyword line = false := by
        cases hb : listPrefix verKeyword line
        · rfl
        · exfalso
          simp [expectKeyword, hb] at h0
      have hp2 := listPrefix_sep_none verKeyword line s '\n' (by decide) hp
      simp only [matchAssign, expectKeyword, hp2]
      simp
  | some r0 =>
      have hk2 : expectKeyword (line ++ '\n' :: s) = some (r0 ++ '\n' :: s) :=
        expectKeyword_append _ _ _ h0
      cases hdw0 : r0.dropWhile isPySpace with
      | nil =>
          exfalso
          simp [danglingLine, h0, hdw0] at hd
      | cons c r2 =>
          by_cases hc : c = '='
          · subst hc
            cases hdw2 : r2.dropWhile isPySpace with
            | nil =>
                exfalso
                simp [danglingLine, h0, hdw0, hdw2] at hd
            | cons q r4 =>
                by_cases hq : isQuote q
                · cases h5 : expectLit old r4 with
                  | none =>
                      have hpl : listPrefix old r4 = false := by
                        cases hb : listPrefix old r4
                        · rfl
                        · exfalso
                          simp [expectLit, hb] at h5
                      have hpl2 := listPrefix_sep_none old r4 s '\n' hnl hpl
                      simp only [matchAssign, hk2, Option.some_bind]
                      rw [dropWhile_append_cons isPySpace r0 ('\n' :: s) r2 '=' hdw0]
                      simp only [expectChar, eq_self_iff_true, if_true, Option.some_bind]
                      rw [dropWhile_append_cons isPySpace r2 ('\n' :: s) r4 q hdw2]
                      simp only [expectQuote, if_pos hq, Option.some_bind]
                      simp only [expectLit, hpl2]
                      simp
                  | some r5 =>
                      have h6 : expectQuote r5 = none := by
                        simp only [matchAssign, h0, Option.some_bind, hdw0] at h
                        simp only [expectChar, eq_self_iff_true, if_true,
                          Option.some_bind] at h
                        rw [hdw2] at h
                        simp only [expectQuote, if_pos hq, Option.some_bind] at h
                        rw [h5] at h
                        simpa using h
                      have hlit2 : expectLit old (r4 ++ '\n' :: s) =
                          some (r5 ++ '\n' :: s) := expectLit_append old r4 r5 ('\n' :: s) h5
                      simp only [matchAssign, hk2, Option.some_bind]
                      rw [dropWhile_append_cons isPySpace r0 ('\n' :: s) r2 '=' hdw0]
                      simp only [expectChar, eq_self_iff_true, if_true, Option.some_bind]
                      rw [dropWhile_append_cons isPySpace r2 ('\n' :: s) r4 q hdw2]
                      simp only [expectQuote, if_pos hq, Option.some_bind]
                      rw [hlit2]
                      simp only [Option.some_bind]
                      cases hr5 : r5 with
                      | nil =>
                          simp only [List.nil_append, expectQuote, isQuote_newline]
                          simp
                      | cons x r6 =>
                          have hx : isQuote x = false := by
                            cases hbx : isQuote x
                            · rfl
                            · exfalso
                              rw [hr5] at h6
                              simp [expectQuote, hbx] at h6
                          simp only [List.cons_append, expectQuote, hx]
                          simp
                · simp only [matchAssign, hk2, Option.some_bind]
                  rw [dropWhile_append_cons isPySpace r0 ('\n' :: s) r2 '=' hdw0]
                  simp only [expectChar, eq_self_iff_true, if_true, Option.some_bind]
                  rw [dropWhile_append_cons isPySpace r2 ('\n' :: s) r4 q hdw2]
                  simp only [expectQuote, if_neg hq]
                  simp
          · simp only [matchAssign, hk2, Option.some_bind]
            rw [dropWhile_append_cons isPySpace r0 ('\n' :: s) r2 c hdw0]
            simp only [expectChar, if_neg hc]
            simp

end BumpVersion

namespace BumpVersion

/-- Off line starts, the scan copies a newline-free text verbatim. -/
theorem subScan_copy (old new l : List Char) (hnl : '\n' ∉ l) :
    subScan old new l false = l := by
  induction l with
  | nil => rw [subScan]
  | cons c t ih =>
      have hc : c ≠ '\n' := fun h => hnl (h ▸ List.mem_cons_self c t)
      rw [subScan]
      simp only [if_neg (by simp : ¬(false = true))]
      rw [show (decide (c = '\n')) = false from decide_eq_false hc]
      rw [ih (fun h => hnl (List.mem_cons_of_mem c h))]

/-- Off line starts, the scan copies a newline-free prefix and resumes at
line start after the newline. -/
theorem subScan_copy_line (old new l rest : List Char) (hnl : '\n' ∉ l) :
    subScan old new (l ++ '\n' :: rest) false =
      l ++ '\n' :: subScan old new rest true := by
  induction l with
  | nil =>
      simp only [List.nil_append]
      rw [subScan]
      simp
  | cons c t ih =>
      have hc : c ≠ '\n' := fun h => hnl (h ▸ List.mem_cons_self c t)
      rw [List.cons_append, subScan]
      simp only [if_neg (by simp : ¬(false = true))]
      rw [show (decide (c = '\n')) = false from decide_eq_false hc]
      rw [ih (fun h => hnl (List.mem_cons_of_mem c h))]
      rfl

/-- At a line start whose line matches, the scan emits the replacement,
copies the rest of the line, and resumes after the newline. -/
theorem subScan_line_match (old new line rest r : List Char) (hnl : '\n' ∉ line)
    (h : matchAssign old line = some r) :
    subScan old new (line ++ '\n' :: rest) true =
      replTxt new ++ r ++ ('\n' :: subScan old new rest true) := by
  have hr : '\n' ∉ r := by
    obtain ⟨pre, rfl⟩ := matchAssign_some_suffix old line r h
    exact fun hm => hnl (List.mem_append.mpr (Or.inr hm))
  have h2 : matchAssign old (line ++ '\n' :: rest) = some (r ++ '\n' :: rest) :=
    matchAssign_append_some old line r ('\n' :: rest) h
  cases line with
  | nil =>
      exfalso
      simp [matchAssign, expectKeyword, listPrefix, verKeyword] at h
  | cons c t =>
      have h2' : matchAssign old (c :: (t ++ '\n' :: rest)) = some (r ++ '\n' :: rest) := by
        rw [← List.cons_append]
        exact h2
      rw [List.cons_append, subScan, if_pos rfl]
      split
      · rename_i x heq
        rw [h2'] at heq
        obtain rfl : r ++ '\n' :: rest = x := by simpa using heq
        rw [subScan_copy_line old new r rest hr]
        simp
      · rename_i heq
        rw [h2'] at heq
        cases heq

/-- At a line start with no match (over the full remaining text), the scan
copies the line and resumes after the newline. -/
theorem subScan_line_nomatch (old new line rest : List Char) (hnl : '\n' ∉ line)
    (h : matchAssign old (line ++ '\n' :: rest) = none) :
    subScan old new (line ++ '\n' :: rest) true =
      line ++ '\n' :: subScan old new rest true := by
  cases line with
  | nil =>
      simp only [List.nil_append] at h ⊢
      rw [subScan, if_pos rfl]
      split
      · rename_i x heq
        rw [h] at heq
        cases heq
      · simp
  | cons c t =>
      have hc : c ≠ '\n' := fun hh => hnl (hh ▸ List.mem_cons_self c t)
      have h' : matchAssign old (c :: (t ++ '\n' :: rest)) = none := by
        rw [← List.cons_append]
        exact h
      rw [List.cons_append, subScan, if_pos rfl]
      split
      · rename_i x heq
        rw [h'] at heq
        cases heq
      · rw [show (decide (c = '\n')) = false from decide_eq_false hc]
        rw [subScan_copy_line old new t rest (fun hh => hnl (List.mem_cons_of_mem c hh))]
        rfl

/-- The scan of the final line (no trailing newline) is the per-line
transform. -/
theorem subScan_last (old new line : List Char) (hnl : '\n' ∉ line) :
    subScan old new line true = lineTransform old new line := by
  cases hm : matchAssign old line with
  | some r =>
      have hr : '\n' ∉ r := by
        obtain ⟨pre, rfl⟩ := matchAssign_some_suffix old line r hm
        exact fun hmm => hnl (List.mem_append.mpr (Or.inr hmm))
      cases line with
      | nil =>
          exfalso
          simp [matchAssign, expectKeyword, listPrefix, verKeyword] at hm
      | cons c t =>
          rw [subScan, if_pos rfl]
          split
          · rename_i x heq
            rw [hm] at heq
            obtain rfl : r = x := by simpa using heq
            rw [subScan_copy old new r hr, lineTransform, hm]
          · rename_i heq
            rw [hm] at heq
            cases heq
  | none =>
      rw [lineTransform, hm]
      cases line with
      | nil => rw [subScan]
      | cons c t =>
          have hc : c ≠ '\n' := fun hh => hnl (hh ▸ List.mem_cons_self c t)
          rw [subScan, if_pos rfl]
          split
          · rename_i x heq
            rw [hm] at heq
            cases heq
          · rw [show (decide (c = '\n')) = false from decide_eq_false hc]
            rw [subScan_copy old new t (fun hh => hnl (List.mem_cons_of_mem c hh))]

theorem intercalate_cons₂ (a b : List Char) (t : List (List Char)) :
    List.intercalate ['\n'] (a :: b :: t) =
      a ++ '\n' :: List.intercalate ['\n'] (b :: t) := by
  simp [List.intercalate, List.intersperse_cons_cons]

theorem splitLines_ne_nil (l : List Char) : splitLines l ≠ [] := by
  cases l with
  | nil => simp [splitLines]
  | cons c rest =>
      by_cases hc : c = '\n'
      · simp [splitLines, hc]
      · simp only [splitLines, if_neg hc]
        cases splitLines rest <;> simp

/-- Joining the lines with newlines restores the text. -/
theorem splitLines_join (l : List Char) :
    List.intercalate ['\n'] (splitLines l) = l := by
  induction l with
  | nil => simp [splitLines, List.intercalate]
  | cons c rest ih =>
      by_cases hc : c = '\n'
      · subst hc
        rw [splitLines, if_pos rfl]
        cases hs : splitLines rest with
        | nil => exact absurd hs (splitLines_ne_nil rest)
        | cons p ps =>
            rw [intercalate_cons₂]
            rw [hs] at ih
            rw [ih]
            rfl
      · simp only [splitLines, if_neg hc]
        cases hs : splitLines rest with
        | nil => exact absurd hs (splitLines_ne_nil rest)
        | cons p ps =>
            rw [hs] at ih
            cases ps with
            | nil =>
                simp only [List.intercalate] at ih ⊢
                simp only [List.intersperse_singleton] at ih ⊢
                simp at ih ⊢
                rw [ih]
            | cons q ps' =>
                rw [intercalate_cons₂] at ih ⊢
                rw [List.cons_append, ih]

/-- No line contains a newline. -/
theorem splitLines_no_newline (l : List Char) :
    ∀ line ∈ splitLines l, '\n' ∉ line := by
  induction l with
  | nil =>
      intro line hm
      simp only [splitLines, List.mem_singleton] at hm
      subst hm
      simp
  | cons c rest ih =>
      intro line hm
      by_cases hc : c = '\n'
      · rw [hc] at hm
        rw [splitLines, if_pos rfl] at hm
        rcases List.mem_cons.mp hm with rfl | hm2
        · simp
        · exact ih line hm2
      · simp only [splitLines, if_neg hc] at hm
        cases hs : splitLines rest with
        | nil => exact absurd hs (splitLines_ne_nil rest)
        | cons p ps =>
            rw [hs] at hm
            simp only [List.mem_cons] at hm
            rcases hm with rfl | hm
            · intro hmem
              rcases List.mem_cons.mp hmem with h1 | h1
              · exact hc h1.symm
              · exact ih p (hs ▸ List.mem_cons_self p ps) h1
            · exact ih line (hs ▸ List.mem_cons_of_mem p hm)

theorem intercalate_singleton (a : List Char) :
    List.intercalate ['\n'] [a] = a := by
  simp [List.intercalate]

/-- The multiline substitution scan, read line by line: provided the old
version has no newline and no line of the text stops inside the pattern's
whitespace, the scan transforms every line independently. -/
theorem subScan_lines (old new : List Char) (hnl : '\n' ∉ old) :
    ∀ ls : List (List Char),
      (∀ line ∈ ls, '\n' ∉ line ∧ danglingLine line = false) →
      subScan old new (List.intercalate ['\n'] ls) true =
        List.intercalate ['\n'] (ls.map (lineTransform old new)) := by
  intro ls
  induction ls with
  | nil =>
      intro _
      simp only [List.intercalate, List.intersperse, List.map_nil]
      rw [show (List.flatten ([] : List (List Char))) = [] from rfl]
      rw [subScan]
  | cons line ls' ih =>
      intro hall
      have h1 := hall line (List.mem_cons_self line ls')
      cases ls' with
      | nil =>
          rw [intercalate_singleton, List.map_cons, List.map_nil, intercalate_singleton]
          exact subScan_last old new line h1.1
      | cons l2 ls'' =>
          have hrest : ∀ x ∈ l2 :: ls'', '\n' ∉ x ∧ danglingLine x = false :=
            fun x hx => hall x (List.mem_cons_of_mem line hx)
          rw [intercalate_cons₂]
          cases hm : matchAssign old line with
          | none =>
              have hfull := matchAssign_append_none old line
                (List.intercalate ['\n'] (l2 :: ls'')) hnl h1.2 hm
              rw [subScan_line_nomatch old new line _ h1.1 hfull]
              rw [ih hrest]
              simp only [List.map_cons]
              rw [intercalate_cons₂]
              simp only [lineTransform, hm]
          | some r =>
              rw [subScan_line_match old new line _ r h1.1 hm]
              rw [ih hrest]
              simp only [List.map_cons]
              rw [intercalate_cons₂]
              simp only [lineTransform, hm]

/-- C10 (amended): the rewritten content replaces, on each line starting
with `version\s*=\s*["']old_version["']`, exactly the matched assignment
text by `version = "new_version"`, keeping the remainder of the line and
every other line unchanged; when no line matches, the content is written
back identical.  (Hypotheses: the old version has no newline, and no line
stops inside the pattern's `\s*` whitespace, where the regex could swallow
the newline and match across lines.) -/
theorem C10_update_pyproject_frame (old new content : String)
    (hnl : '\n' ∉ old.data)
    (hd : ∀ line ∈ splitLines content.data, danglingLine line = false) :
    update_pyproject old new content =
      String.mk (List.intercalate ['\n']
        ((splitLines content.data).map (lineTransform old.data new.data))) ∧
    ((∀ line ∈ splitLines content.data, matchAssign old.data line = none) →
      update_pyproject old new content = content) := by
  have key : subScan old.data new.data content.data true =
      List.intercalate ['\n']
        ((splitLines content.data).map (lineTransform old.data new.data)) := by
    conv_lhs => rw [← splitLines_join content.data]
    exact subScan_lines old.data new.data hnl (splitLines content.data)
      (fun line hm => ⟨splitLines_no_newline content.data line hm, hd line hm⟩)
  refine ⟨?_, ?_⟩
  · simp only [update_pyproject, key]
  · intro hnone
    have hid : ∀ line ∈ splitLines content.data,
        lineTransform old.data new.data line = line := by
      intro line hm
      simp [lineTransform, hnone line hm]
    have hmap : (splitLines content.data).map (lineTransform old.data new.data) =
        splitLines content.data := by
      rw [List.map_congr_left hid]
      simp
    rw [update_pyproject, key, hmap, splitLines_join]

/-- Witness for the amended C10 at a concrete two-line pyproject
fragment. -/
theorem C10_update_pyproject_frame_witness :
    update_pyproject "1.0.0" "2.0.0" "version = \"1.0.0\"\nname = \"resilience-h8\"\n" =
      String.mk (List.intercalate ['\n']
        ((splitLines ("version = \"1.0.0\"\nname = \"resilience-h8\"\n").data).map
          (lineTransform ("1.0.0" : String).data ("2.0.0" : String).data))) :=
  (C10_update_pyproject_frame "1.0.0" "2.0.0" "version = \"1.0.0\"\nname = \"resilience-h8\"\n"
    (by decide) (by decide)).1

/-- C10 as stated is false: on a line with text after the matched
assignment, only the assignment is replaced and the rest of the line is
preserved, not the whole line. -/
theorem C10_update_pyproject_counterexample :
    update_pyproject "1.0.0" "1.0.1" "version = \"1.0.0\" # pinned\n" =
      "version = \"1.0.1\" # pinned\n" ∧
    update_pyproject "1.0.0" "1.0.1" "version = \"1.0.0\" # pinned\n" ≠
      "version = \"1.0.1\"\n" := by
  have key : subScan ("1.0.0" : String).data ("1.0.1" : String).data
      ("version = \"1.0.0\" # pinned\n" : String).data true =
      List.intercalate ['\n']
        ((splitLines ("version = \"1.0.0\" # pinned\n" : String).data).map
          (lineTransform ("1.0.0" : String).data ("1.0.1" : String).data)) := by
    conv_lhs => rw [← splitLines_join ("version = \"1.0.0\" # pinned\n" : String).data]
    exact subScan_lines _ _ (by decide) _ (by decide)
  constructor
  · simp only [update_pyproject, key]
    decide
  · simp only [update_pyproject, key]
    decide

end BumpVersion
